import Mathlib

/-!
Shallow embedding of the stx library core: the strong-typed domain model
(core.hpp, both shipped revisions), address normalization, typed memory
access and alignment (mem.hpp), and the range traversal engine (range.hpp,
both shipped revisions: the current one parameterized by direction and
boundary mode, and the legacy one that infers direction from the bound
order and saturates the advance at the end value).

Machine integers are modelled as Nat with explicit reduction mod 2 ^ w
where wrap-around matters (the unsigned carriers of strong_type, the
alignment helpers, and the unsigned instantiation of the range engine
used for the termination analysis).  The range engine is generic over
any integral type; the claims about its comparisons and the structure of
its advance use the overflow-free Int view, and the termination claims
use the wrapping w-bit unsigned instantiation.  Pointers are modelled by
their 64-bit object representation (LP64 platform model).
-/

namespace stx

/-- w-bit unsigned machine addition: the primitive operator+ of an
unsigned carrier of width w, which wraps mod 2 ^ w. -/
def wadd (w x y : Nat) : Nat := (x + y) % 2 ^ w

/-- w-bit unsigned machine subtraction: the primitive operator- of an
unsigned carrier of width w, i.e. (x - y) mod 2 ^ w. -/
def wsub (w x y : Nat) : Nat := (x + (2 ^ w - y % 2 ^ w)) % 2 ^ w

/-- Bitwise NOT inside a w-bit word (the C operator ~ applied to a value
below 2 ^ w). -/
def wnot (w x : Nat) : Nat := 2 ^ w - 1 - x

-- DOMAIN MODEL (core.hpp, the revision carrying the arithmetic) ----------

/-- Zero-sized domain tag for file offsets (struct offset_tag). -/
structure offset_tag where

/-- Zero-sized domain tag for relative virtual addresses (struct rva_tag). -/
structure rva_tag where

/-- Zero-sized domain tag for absolute virtual addresses (struct va_tag). -/
structure va_tag where

/-- strong_type<Type, Tag>: stores exactly one primitive value of the
w-bit unsigned carrier Type, marked with the zero-sized Tag. -/
structure strong_type (w : Nat) (Tag : Type) where
  value : Nat

/-- strong_type::get(): read access to the stored primitive. -/
def strong_type.get {w : Nat} {Tag : Type} (a : strong_type w Tag) : Nat :=
  a.value

/-- operator+( strong_type lhs, Type rhs ): lhs.value += rhs, returning the
tagged value (same tag, wrapped carrier addition). -/
def strong_type.add {w : Nat} {Tag : Type}
    (lhs : strong_type w Tag) (rhs : Nat) : strong_type w Tag :=
  { lhs with value := wadd w lhs.value rhs }

/-- operator-( strong_type lhs, Type rhs ): lhs.value -= rhs, returning the
tagged value (same tag, wrapped carrier subtraction). -/
def strong_type.sub {w : Nat} {Tag : Type}
    (lhs : strong_type w Tag) (rhs : Nat) : strong_type w Tag :=
  { lhs with value := wsub w lhs.value rhs }

/-- operator-( strong_type lhs, strong_type rhs ): the difference of two
same-tag values, returned as the bare primitive (its Lean type is Nat, not
strong_type; the same-tag requirement is enforced by the shared Tag
parameter). -/
def strong_type.diff {w : Nat} {Tag : Type}
    (lhs rhs : strong_type w Tag) : Nat :=
  wsub w lhs.value rhs.value

/-- offset_t = strong_type<usize, offset_tag>; usize is 64-bit here. -/
abbrev offset_t := strong_type 64 offset_tag

/-- rva_t = strong_type<u32, rva_tag>. -/
abbrev rva_t := strong_type 32 rva_tag

/-- va_t = strong_type<uptr, va_tag>; uptr is 64-bit here. -/
abbrev va_t := strong_type 64 va_tag

-- ADDRESS CONTRACT -------------------------------------------------------

/-- The closed set of address_like input shapes: a raw pointer, a
platform-width unsigned integer (uintptr_t), a platform-width signed
integer (intptr_t), or an absolute-address tagged value (va_t). -/
inductive Addr where
  | ptr (bits : Nat)
  | uptr (bits : Nat)
  | iptr (v : Int)
  | va (a : va_t)

/-- The 64-bit object representation of an address-like value: the stored
bits for pointer-shaped and unsigned inputs, the two-complement encoding
for the signed input, and the wrapped primitive for va_t. -/
def Addr.bitPattern : Addr → Nat
  | .ptr b => b
  | .uptr b => b
  | .iptr v => (v % (2 : Int) ^ 64).toNat
  | .va a => a.value

/-- Well-formedness of an address-like value: its payload fits the 64-bit
platform word (every value of the corresponding C++ type does). -/
def Addr.wf : Addr → Prop
  | .ptr b => b < 2 ^ 64
  | .uptr b => b < 2 ^ 64
  | .iptr v => -(2 : Int) ^ 63 ≤ v ∧ v < (2 : Int) ^ 63
  | .va a => a.value < 2 ^ 64

/-- normalize_addr (current core revision): reinterpret_cast for pointers,
base.get() widened for va_t, static_cast for the platform integers.  The
signed branch is the value conversion to uintptr_t, i.e. reduction mod
2 ^ 64. -/
def normalize_addr : Addr → Nat
  | .ptr b => b
  | .uptr b => b
  | .iptr v => (v % (2 : Int) ^ 64).toNat
  | .va a => a.get

/-- addr_of (the other core revision): identical dispatch, with the va_t
branch going through the explicit conversion operator instead of get(). -/
def addr_of : Addr → Nat
  | .ptr b => b
  | .uptr b => b
  | .iptr v => (v % (2 : Int) ^ 64).toNat
  | .va a => a.value

-- BINARY-READABLE PREDICATE ----------------------------------------------

/-- The compile-time trait vector of a C++ payload type: the four standard
type traits the binary_readable concept consults. -/
structure TypeDesc where
  trivially_copyable : Bool
  standard_layout : Bool
  is_empty : Bool
  is_pointer : Bool

/-- binary_readable (current core revision, the one extended with the
pointer exclusion): trivially copyable, standard layout, non-empty, and
not a pointer. -/
def binary_readable (t : TypeDesc) : Bool :=
  t.trivially_copyable && t.standard_layout && !t.is_empty && !t.is_pointer

/-- binary_readable (the other core revision): trivially copyable,
standard layout and non-empty only; no pointer exclusion. -/
def binary_readable_core (t : TypeDesc) : Bool :=
  t.trivially_copyable && t.standard_layout && !t.is_empty

/-- The static check the typed memory operations of mem.hpp actually
perform on the payload: static_assert(std::is_trivially_copyable_v). -/
def read_accepts (t : TypeDesc) : Bool :=
  t.trivially_copyable

/-- Restatement of the specification words for the binary-readable
predicate, kept separate from the source translation so the two can be
compared: trivially copyable, fixed (standard) layout, non-empty, and not
itself a pointer. -/
def binary_readable_spec (t : TypeDesc) : Prop :=
  t.trivially_copyable = true ∧ t.standard_layout = true
    ∧ t.is_empty = false ∧ t.is_pointer = false

-- TYPED MEMORY ACCESS (mem.hpp) ------------------------------------------

/-- Byte-addressable memory, one cell per address. -/
def Mem : Type := Nat → Nat

/-- The memcpy into memory underlying stx::write: store the object
representation data starting at addr, leaving every other cell
untouched. -/
def writeBytes (mem : Mem) (addr : Nat) (data : List Nat) : Mem :=
  fun a => if addr ≤ a ∧ a - addr < data.length then data.getD (a - addr) 0 else mem a

/-- The memcpy out of memory underlying stx::read: copy n bytes starting
at addr into a fresh value buffer. -/
def readBytes (mem : Mem) (addr n : Nat) : List Nat :=
  (List.range n).map fun i => mem (addr + i)

/-- stx::write<Type>(base, off, value): memcpy the sizeof(Type) bytes of
value to normalize_addr(base) + off.get(). -/
def write (mem : Mem) (base : Addr) (off : offset_t) (data : List Nat) : Mem :=
  writeBytes mem (normalize_addr base + off.get) data

/-- stx::read<Type>(base, off): memcpy sizeof(Type) bytes from
normalize_addr(base) + off.get() into a local value and return it.  A
trivially copyable value is its object representation, so the result is
the byte list read. -/
def read (mem : Mem) (base : Addr) (off : offset_t) (n : Nat) : List Nat :=
  readBytes mem (normalize_addr base + off.get) n

-- ALIGNMENT UTILITIES (mem.hpp) ------------------------------------------

/-- align_up for a w-bit unsigned value: (value + alignment - 1) &
~(alignment - 1), every operation performed in the w-bit word (the sum
wraps mod 2 ^ w). -/
def align_up (w value alignment : Nat) : Nat :=
  ((value + alignment - 1) % 2 ^ w) &&& wnot w (alignment - 1)

/-- align_down for a w-bit unsigned value: value & ~(alignment - 1). -/
def align_down (w value alignment : Nat) : Nat :=
  value &&& wnot w (alignment - 1)

-- RANGE TRAVERSAL ENGINE: current revision (range.hpp) -------------------

/-- range_dir: the direction parameter of the current range revision. -/
inductive range_dir where
  | Forward
  | Backward
deriving DecidableEq

/-- range_mode: the boundary-inclusion parameter of the current range
revision. -/
inductive range_mode where
  | Inclusive
  | Exclusive
deriving DecidableEq

/-- range_iter of the current revision: cursor, end value, step, and the
direction and mode fixed for the traversal.  The cursor field end is
spelled end_ because end is reserved in Lean. -/
structure range_iter where
  cur : Int
  end_ : Int
  step : Int
  dir : range_dir
  mode : range_mode
deriving DecidableEq

/-- range_iter::operator*(): yield the cursor (integral instantiation). -/
def range_iter.deref (it : range_iter) : Int := it.cur

/-- range_iter::operator++(): add step to the cursor when the direction is
Forward, subtract it when Backward. -/
def range_iter.next (it : range_iter) : range_iter :=
  if it.dir = range_dir.Forward then { it with cur := it.cur + it.step }
  else { it with cur := it.cur - it.step }

/-- range_iter::operator==(range_sentinel): the stop test evaluated before
each dereference. -/
def range_iter.atEnd (it : range_iter) : Bool :=
  if it.dir = range_dir.Forward then
    if it.mode = range_mode.Inclusive then decide (it.cur > it.end_)
    else decide (it.cur ≥ it.end_)
  else
    if it.mode = range_mode.Inclusive then decide (it.cur < it.end_)
    else decide (it.cur ≤ it.end_)

/-- n applications of operator++ to an iterator. -/
def range_iter.nextN : range_iter → Nat → range_iter
  | it, 0 => it
  | it, n + 1 => range_iter.nextN it.next n

/-- range_view of the current revision: the immutable descriptor. -/
structure range_view where
  from_ : Int
  to_ : Int
  step : Int
  dir : range_dir
  mode : range_mode
deriving DecidableEq

/-- range_view::begin(): a fresh iterator seeded from the descriptor. -/
def range_view.begin (rv : range_view) : range_iter :=
  { cur := rv.from_, end_ := rv.to_, step := rv.step, dir := rv.dir, mode := rv.mode }

/-- range(from, to, step, dir, flag): the fully explicit constructor. -/
def range (from_ to_ step : Int) (dir : range_dir) (mode : range_mode) : range_view :=
  { from_ := from_, to_ := to_, step := step, dir := dir, mode := mode }

/-- range(to, dir, flag): from 0, step 1. -/
def range_to (to_ : Int) (dir : range_dir) (mode : range_mode) : range_view :=
  { from_ := 0, to_ := to_, step := 1, dir := dir, mode := mode }

/-- range(from, to, dir, flag): step 1, delegating to the full form. -/
def range_nostep (from_ to_ : Int) (dir : range_dir) (mode : range_mode) : range_view :=
  range from_ to_ 1 dir mode

/-- irange(from, to, step, dir): the full form fixed to Inclusive. -/
def irange (from_ to_ step : Int) (dir : range_dir) : range_view :=
  range from_ to_ step dir range_mode.Inclusive

/-- irange(to, dir): the single-bound form fixed to Inclusive. -/
def irange_to (to_ : Int) (dir : range_dir) : range_view :=
  range_to to_ dir range_mode.Inclusive

/-- Run the sentinel loop of a range-based for: test the stop condition,
dereference, advance, with the given amount of fuel.  The result is some
list exactly when the traversal terminates within the fuel, and that list
is the complete sequence of yielded values. -/
def enum (it : range_iter) : Nat → Option (List Int)
  | 0 => if it.atEnd then some [] else none
  | n + 1 =>
      if it.atEnd then some []
      else (enum it.next n).map fun l => it.deref :: l

-- UNSIGNED INSTANTIATION OF THE CURRENT RANGE ENGINE ---------------------

/-- range_iter of the current revision instantiated at a w-bit unsigned
carrier (u8..u64, usize, the strong-type carriers): the same template as
range_iter, with the carrier arithmetic of the source, which wraps mod
2 ^ w.  Every field of a program state is a carrier value below 2 ^ w. -/
structure urange_iter (w : Nat) where
  cur : Nat
  end_ : Nat
  step : Nat
  dir : range_dir
  mode : range_mode
deriving DecidableEq

/-- range_iter::operator++() at the unsigned instantiation: cur += step
when the direction is Forward, cur -= step when Backward, both in the
wrapping carrier. -/
def urange_iter.next {w : Nat} (it : urange_iter w) : urange_iter w :=
  if it.dir = range_dir.Forward then { it with cur := wadd w it.cur it.step }
  else { it with cur := wsub w it.cur it.step }

/-- range_iter::operator==(range_sentinel) at the unsigned instantiation:
the same stop matrix, with unsigned comparisons. -/
def urange_iter.atEnd {w : Nat} (it : urange_iter w) : Bool :=
  if it.dir = range_dir.Forward then
    if it.mode = range_mode.Inclusive then decide (it.cur > it.end_)
    else decide (it.cur ≥ it.end_)
  else
    if it.mode = range_mode.Inclusive then decide (it.cur < it.end_)
    else decide (it.cur ≤ it.end_)

/-- n applications of operator++ at the unsigned instantiation. -/
def urange_iter.nextN {w : Nat} : urange_iter w → Nat → urange_iter w
  | it, 0 => it
  | it, n + 1 => urange_iter.nextN it.next n

/-- range_view at the unsigned instantiation. -/
structure urange_view (w : Nat) where
  from_ : Nat
  to_ : Nat
  step : Nat
  dir : range_dir
  mode : range_mode
deriving DecidableEq

/-- range_view::begin() at the unsigned instantiation. -/
def urange_view.begin {w : Nat} (rv : urange_view w) : urange_iter w :=
  { cur := rv.from_, end_ := rv.to_, step := rv.step, dir := rv.dir, mode := rv.mode }

/-- range(from, to, step, dir, flag) at the w-bit unsigned
instantiation. -/
def urange (w : Nat) (from_ to_ step : Nat) (dir : range_dir) (mode : range_mode) :
    urange_view w :=
  { from_ := from_, to_ := to_, step := step, dir := dir, mode := mode }

end stx

-- RANGE TRAVERSAL ENGINE: legacy revision (range.hpp) --------------------

namespace stx.legacy

/-- Flag of the legacy range_iter: direction and inclusivity share one
enumeration. -/
inductive Flag where
  | Forward
  | Backward
  | Inclusive
  | NonInclusive
deriving DecidableEq

/-- range_iter of the legacy revision. -/
structure range_iter where
  cur : Int
  end_ : Int
  step : Int
  direction : Flag
  inclusive : Flag
deriving DecidableEq

/-- Legacy range_iter::operator++(): saturating advance; when the
remaining distance to end is smaller than step (or the cursor is already
past end) the cursor is clamped to end, otherwise it moves by step. -/
def range_iter.advance (it : range_iter) : range_iter :=
  if it.direction = Flag.Forward then
    if it.cur > it.end_ ∨ it.end_ - it.cur < it.step then { it with cur := it.end_ }
    else { it with cur := it.cur + it.step }
  else
    if it.cur < it.end_ ∨ it.cur - it.end_ < it.step then { it with cur := it.end_ }
    else { it with cur := it.cur - it.step }

/-- Legacy range_iter::operator!=(range_sentinel): the continuation test
of the loop (its negation is the stop test). -/
def range_iter.continues (it : range_iter) : Bool :=
  if it.inclusive = Flag.Inclusive then
    if it.direction = Flag.Forward then decide (it.cur ≤ it.end_)
    else decide (it.cur ≥ it.end_)
  else decide (it.cur ≠ it.end_)

/-- range_view of the legacy revision. -/
structure range_view where
  from_ : Int
  to_ : Int
  step : Int
  direction : Flag
  inclusive : Flag
deriving DecidableEq

/-- Legacy range_view::begin(). -/
def range_view.begin (rv : range_view) : range_iter :=
  { cur := rv.from_, end_ := rv.to_, step := rv.step,
    direction := rv.direction, inclusive := rv.inclusive }

/-- Legacy range(from, to, step = 1): a zero step is silently replaced by
one, and the direction is inferred from the bound order (Forward exactly
when from <= to); the mode is NonInclusive. -/
def range (from_ to_ step : Int) : range_view :=
  { from_ := from_, to_ := to_,
    step := if step = 0 then 1 else step,
    direction := if from_ ≤ to_ then Flag.Forward else Flag.Backward,
    inclusive := Flag.NonInclusive }

/-- Legacy irange(from, to, step = 1): as legacy range but Inclusive. -/
def irange (from_ to_ step : Int) : range_view :=
  { from_ := from_, to_ := to_,
    step := if step = 0 then 1 else step,
    direction := if from_ ≤ to_ then Flag.Forward else Flag.Backward,
    inclusive := Flag.Inclusive }

end stx.legacy

-- THEOREMS ----------------------------------------------------------------

namespace stx

/-- Helper: normalization returns the object representation, on every
address-like shape. -/
theorem normalize_addr_eq_bitPattern (a : Addr) : normalize_addr a = a.bitPattern := by
  cases a <;> rfl

/-- Helper: the other core revision normalizes identically. -/
theorem addr_of_eq_bitPattern (a : Addr) : addr_of a = a.bitPattern := by
  cases a <;> rfl

/-- C2: the range constructors produce exactly the closed-form sequences
the specification enumerates: range(10, Forward, Exclusive) yields
0..9, irange(0,10,1,Forward) yields 0..10, range(10,0,1,Backward,
Exclusive) yields 10..1, and range(0,20,4,Forward,Exclusive) yields
0,4,8,12,16.  A result of the form some L certifies that the traversal
terminated within the fuel and yielded exactly L. -/
theorem range_enum_closed_forms :
    enum (range_to 10 range_dir.Forward range_mode.Exclusive).begin 15
      = some [0, 1, 2, 3, 4, 5, 6, 7, 8, 9]
    ∧ enum (irange 0 10 1 range_dir.Forward).begin 15
      = some [0, 1, 2, 3, 4, 5, 6, 7, 8, 9, 10]
    ∧ enum (range 10 0 1 range_dir.Backward range_mode.Exclusive).begin 15
      = some [10, 9, 8, 7, 6, 5, 4, 3, 2, 1]
    ∧ enum (range 0 20 4 range_dir.Forward range_mode.Exclusive).begin 15
      = some [0, 4, 8, 12, 16] := by
  refine ⟨?_, ?_, ?_, ?_⟩ <;> decide

/-- C3: for two tagged values of one tag, the difference is the bare
primitive difference of the stored values (its type is the primitive, not
the tagged wrapper), and tagged + primitive and tagged - primitive return
a tagged value of the same tag storing the corresponding carrier sum or
difference. -/
theorem strong_type_arith_contract :
    ∀ (w : Nat) (Tag : Type) (a b : strong_type w Tag) (p : Nat),
      strong_type.diff a b = wsub w a.get b.get
      ∧ (strong_type.add a p).get = wadd w a.get p
      ∧ (strong_type.sub a p).get = wsub w a.get p :=
  fun _ _ _ _ _ => ⟨rfl, rfl, rfl⟩

/-- C5: normalizing a raw pointer, a platform unsigned or signed integer,
or an absolute-address tagged value returns the canonical pointer-width
unsigned integer equal to the input bit pattern, so representations of
one bit pattern normalize identically (in both core revisions). -/
theorem normalize_addr_canonical :
    (∀ a : Addr, a.wf →
        normalize_addr a = a.bitPattern ∧ addr_of a = a.bitPattern
        ∧ normalize_addr a < 2 ^ 64)
    ∧ (∀ a b : Addr, a.wf → b.wf → a.bitPattern = b.bitPattern →
        normalize_addr a = normalize_addr b) := by
  constructor
  · intro a hw
    refine ⟨normalize_addr_eq_bitPattern a, addr_of_eq_bitPattern a, ?_⟩
    cases a with
    | ptr b => exact hw
    | uptr b => exact hw
    | va v => exact hw
    | iptr v =>
        have h1 : 0 ≤ v % (2 : Int) ^ 64 := Int.emod_nonneg v (by norm_num)
        have h2 : v % (2 : Int) ^ 64 < (2 : Int) ^ 64 :=
          Int.emod_lt_of_pos v (by norm_num)
        show (v % (2 : Int) ^ 64).toNat < 2 ^ 64
        omega
  · intro a b _ _ hpat
    rw [normalize_addr_eq_bitPattern a, normalize_addr_eq_bitPattern b, hpat]

/-- Witness for C5: the signed integer -1 and the unsigned integer
2 ^ 64 - 1 share one bit pattern and normalize to the same canonical
integer. -/
theorem normalize_addr_canonical_witness :
    normalize_addr (Addr.iptr (-1)) = normalize_addr (Addr.uptr (2 ^ 64 - 1)) :=
  normalize_addr_canonical.2 _ _ (by constructor <;> decide)
    (by show (2 : Nat) ^ 64 - 1 < 2 ^ 64; decide) (by decide)

/-- C6: writing a value at (base, off) and then performing the copy-based
read of the same size at the same (base, off) returns the value written,
with no alignment assumption on the target address. -/
theorem write_read_roundtrip :
    ∀ (mem : Mem) (base : Addr) (off : offset_t) (data : List Nat),
      read (write mem base off data) base off data.length = data := by
  intro mem base off data
  unfold read write readBytes writeBytes
  apply List.ext_getElem
  · simp
  · intro i h1 h2
    simp only [List.getElem_map, List.getElem_range]
    have hsub : normalize_addr base + off.get + i - (normalize_addr base + off.get) = i := by
      omega
    rw [if_pos ⟨Nat.le_add_right _ _, by omega⟩, hsub]
    exact List.getD_eq_getElem data 0 h2

/-- C7 (amended): the extended-revision binary-readable predicate holds
exactly when the payload is trivially copyable, standard layout,
non-empty and not a pointer; the typed memory read/write operations
statically require only trivial copyability, a strictly weaker check that
every binary-readable payload passes. -/
theorem binary_readable_characterization :
    (∀ t : TypeDesc, binary_readable t = true ↔ binary_readable_spec t)
    ∧ (∀ t : TypeDesc, binary_readable t = true → read_accepts t = true) := by
  constructor
  · intro t
    obtain ⟨tc, sl, em, pt⟩ := t
    cases tc <;> cases sl <;> cases em <;> cases pt <;>
      simp [binary_readable, binary_readable_spec]
  · intro t h
    obtain ⟨tc, sl, em, pt⟩ := t
    cases tc
    · cases h
    · rfl

/-- Counterexample for C7: a pointer payload (modelling int*, which is
trivially copyable, standard layout and non-empty) is accepted by the
static check of read/write and by the core.hpp revision of the predicate,
although the claimed characterization excludes pointers. -/
theorem binary_readable_pointer_payload :
    read_accepts ⟨true, true, false, true⟩ = true
    ∧ binary_readable ⟨true, true, false, true⟩ = false
    ∧ binary_readable_core ⟨true, true, false, true⟩ = true :=
  ⟨rfl, rfl, rfl⟩

/-- Witness for C7: a plain non-pointer payload satisfies the predicate
and is accepted by the static check of read/write. -/
theorem binary_readable_characterization_witness :
    read_accepts ⟨true, true, false, false⟩ = true :=
  binary_readable_characterization.2 _ rfl

/-- C9: the legacy integral range construction taking (from, to, step)
and its inclusive irange variant silently coerce a zero step to one in
the returned descriptor. -/
theorem legacy_zero_step_coerced :
    ∀ f t : Int, (legacy.range f t 0).step = 1 ∧ (legacy.irange f t 0).step = 1 :=
  fun _ _ => ⟨rfl, rfl⟩

/-- C1 (amended): for the current-revision iterator the stop test
evaluated before each dereference is exactly the direction/mode matrix of
the specification; for the legacy iterator the inclusive stop tests also
match the matrix, but the exclusive stop test is cursor == end, which
agrees with the matrix precisely on cursors that are not strictly past
the end value. -/
theorem stop_test_matrix :
    (∀ it : range_iter, it.atEnd = true ↔
        ((it.dir = range_dir.Forward ∧ it.mode = range_mode.Inclusive ∧ it.end_ < it.cur)
        ∨ (it.dir = range_dir.Forward ∧ it.mode = range_mode.Exclusive ∧ it.end_ ≤ it.cur)
        ∨ (it.dir = range_dir.Backward ∧ it.mode = range_mode.Inclusive ∧ it.cur < it.end_)
        ∨ (it.dir = range_dir.Backward ∧ it.mode = range_mode.Exclusive ∧ it.cur ≤ it.end_)))
    ∧ (∀ it : legacy.range_iter, it.inclusive = legacy.Flag.Inclusive →
        (it.continues = false ↔
          (if it.direction = legacy.Flag.Forward then it.end_ < it.cur else it.cur < it.end_)))
    ∧ (∀ it : legacy.range_iter, it.inclusive = legacy.Flag.NonInclusive →
        ((it.continues = false ↔ it.cur = it.end_)
        ∧ ((if it.direction = legacy.Flag.Forward then it.cur ≤ it.end_ else it.end_ ≤ it.cur) →
            (it.continues = false ↔
              (if it.direction = legacy.Flag.Forward then it.end_ ≤ it.cur
               else it.cur ≤ it.end_))))) := by
  refine ⟨?_, ?_, ?_⟩
  · intro it
    obtain ⟨cur, e, s, dir, mode⟩ := it
    cases dir <;> cases mode <;> simp [range_iter.atEnd]
  · intro it h
    obtain ⟨cur, e, s, dir, incl⟩ := it
    subst h
    by_cases hd : dir = legacy.Flag.Forward <;>
      simp [legacy.range_iter.continues, hd]
  · intro it h
    obtain ⟨cur, e, s, dir, incl⟩ := it
    subst h
    constructor
    · simp [legacy.range_iter.continues]
    · intro hb
      by_cases hd : dir = legacy.Flag.Forward <;>
        simp [legacy.range_iter.continues, hd] at hb ⊢ <;> omega

/-- Counterexample for C1: a legacy exclusive Forward iterator whose
cursor 5 is past the end value 3 keeps iterating (its continuation test
is cursor != end), although the claimed matrix says the traversal stops
there because cursor >= end. -/
theorem stop_test_matrix_counterexample :
    ¬ ((({ cur := 5, end_ := 3, step := 1, direction := legacy.Flag.Forward,
           inclusive := legacy.Flag.NonInclusive } : legacy.range_iter).continues = false)
        ↔ ((3 : Int) ≤ 5)) := by
  decide

/-- Witness for C1: on a legacy exclusive Forward iterator whose cursor
equals the end value (within the reachable region), the stop test agrees
with the matrix. -/
theorem stop_test_matrix_witness :
    (({ cur := 2, end_ := 2, step := 1, direction := legacy.Flag.Forward,
        inclusive := legacy.Flag.NonInclusive } : legacy.range_iter).continues = false)
      ↔ ((2 : Int) ≤ 2) := by
  have h := (stop_test_matrix.2.2
    (⟨2, 2, 1, legacy.Flag.Forward, legacy.Flag.NonInclusive⟩ : legacy.range_iter) rfl).2
  simpa using h (by simp)

/-- C8 (amended): in the current revision a single advance adds the step
to the cursor when the stored direction is Forward and subtracts it when
Backward, and the stored direction is exactly the direction parameter,
independent of the bounds and of the step; in the legacy revision the
direction is instead inferred from the bound order (and the advance
saturates at the end value, see the counterexample). -/
theorem advance_direction_contract :
    (∀ it : range_iter,
        (it.next).cur
          = if it.dir = range_dir.Forward then it.cur + it.step else it.cur - it.step)
    ∧ (∀ (f t s : Int) (d : range_dir) (m : range_mode),
        (range f t s d m).dir = d ∧ ((range f t s d m).begin).dir = d)
    ∧ (∀ f t s : Int,
        (legacy.range f t s).direction
          = if f ≤ t then legacy.Flag.Forward else legacy.Flag.Backward) := by
  refine ⟨?_, fun _ _ _ _ _ => ⟨rfl, rfl⟩, fun _ _ _ => rfl⟩
  intro it
  by_cases h : it.dir = range_dir.Forward <;> simp [range_iter.next, h]

/-- Counterexample for C8: a legacy Forward iterator with cursor 0, end 3
and step 5 advances to 3 (the advance saturates at the end value), not to
0 + 5 as the claim requires of every range traversal. -/
theorem advance_saturates_counterexample :
    ¬ ((({ cur := 0, end_ := 3, step := 5, direction := legacy.Flag.Forward,
           inclusive := legacy.Flag.NonInclusive } : legacy.range_iter).advance).cur
        = 0 + 5) := by
  decide

end stx

namespace stx

/-- Helper: the w-bit complement of the low-bit mask is the high-bit
mask. -/
theorem wnot_two_pow_sub_one (w k : Nat) (hk : k ≤ w) :
    wnot w (2 ^ k - 1) = 2 ^ w - 2 ^ k := by
  have h : (2 : Nat) ^ k ≤ 2 ^ w := Nat.pow_le_pow_right (by norm_num) hk
  have h1 : 0 < (2 : Nat) ^ k := Nat.two_pow_pos k
  unfold wnot
  omega

/-- Helper: masking with the high-bit mask clears the low k bits, i.e.
rounds down to a multiple of 2 ^ k, for any w-bit value. -/
theorem and_high_mask (w k x : Nat) (hk : k ≤ w) (hx : x < 2 ^ w) :
    x &&& (2 ^ w - 2 ^ k) = 2 ^ k * (x / 2 ^ k) := by
  have hmask : 2 ^ w - 2 ^ k = (2 ^ (w - k) - 1) <<< k := by
    rw [Nat.shiftLeft_eq, Nat.sub_mul, one_mul, ← Nat.pow_add]
    congr 2
    omega
  have hrhs : 2 ^ k * (x / 2 ^ k) = (x >>> k) <<< k := by
    rw [Nat.shiftRight_eq_div_pow, Nat.shiftLeft_eq, Nat.mul_comm]
  rw [hmask, hrhs]
  apply Nat.eq_of_testBit_eq
  intro i
  rw [Nat.testBit_and, Nat.testBit_shiftLeft, Nat.testBit_shiftLeft,
    Nat.testBit_shiftRight, Nat.testBit_two_pow_sub_one]
  by_cases hik : k ≤ i
  · by_cases hiw : i < w
    · have heq : k + (i - k) = i := by omega
      simp [hik, heq, show i - k < w - k by omega]
    · have hxi : x.testBit i = false :=
        Nat.testBit_lt_two_pow
          (lt_of_lt_of_le hx (Nat.pow_le_pow_right (by norm_num) (by omega)))
      have hki : x.testBit (k + (i - k)) = false := by
        rwa [show k + (i - k) = i by omega]
      simp [hik, hki, hxi]
  · simp [hik]

/-- Helper: closed form of align_down at a power-of-two alignment. -/
theorem align_down_eq (w k v : Nat) (hk : k ≤ w) (hv : v < 2 ^ w) :
    align_down w v (2 ^ k) = 2 ^ k * (v / 2 ^ k) := by
  unfold align_down
  rw [wnot_two_pow_sub_one w k hk, and_high_mask w k v hk hv]

/-- Helper: closed form of align_up at a power-of-two alignment, when the
biased sum does not wrap. -/
theorem align_up_eq (w k v : Nat) (hk : k ≤ w) (hv : v + 2 ^ k - 1 < 2 ^ w) :
    align_up w v (2 ^ k) = 2 ^ k * ((v + 2 ^ k - 1) / 2 ^ k) := by
  unfold align_up
  rw [Nat.mod_eq_of_lt hv, wnot_two_pow_sub_one w k hk, and_high_mask w k _ hk hv]

/-- C4 (amended): for every w-bit unsigned value v and power-of-two
alignment 2 ^ k, align_up(align_down(v, a), a) = align_down(v, a) and
align_down(v, a) <= v; the remaining inequality v <= align_up(v, a) holds
whenever the biased sum v + a - 1 does not wrap mod 2 ^ w (it fails at
the top of the value range, see the counterexample). -/
theorem align_laws (w k v : Nat) (hk : k < w) (hv : v < 2 ^ w) :
    align_up w (align_down w v (2 ^ k)) (2 ^ k) = align_down w v (2 ^ k)
    ∧ align_down w v (2 ^ k) ≤ v
    ∧ (v + 2 ^ k - 1 < 2 ^ w → v ≤ align_up w v (2 ^ k)) := by
  have hk' : k ≤ w := le_of_lt hk
  have hpos : 0 < (2 : Nat) ^ k := Nat.two_pow_pos k
  have hdown := align_down_eq w k v hk' hv
  have hdle : 2 ^ k * (v / 2 ^ k) ≤ v := by
    rw [Nat.mul_comm]
    exact Nat.div_mul_le_self v (2 ^ k)
  refine ⟨?_, ?_, ?_⟩
  · have hqlt : v / 2 ^ k < 2 ^ (w - k) := by
      rw [Nat.div_lt_iff_lt_mul hpos]
      calc v < 2 ^ w := hv
        _ = 2 ^ (w - k) * 2 ^ k := by rw [← Nat.pow_add]; congr 1; omega
    have hmul : 2 ^ k * (v / 2 ^ k + 1) ≤ 2 ^ k * 2 ^ (w - k) :=
      Nat.mul_le_mul_left _ hqlt
    have h2 : 2 ^ k * 2 ^ (w - k) = 2 ^ w := by
      rw [← Nat.pow_add]; congr 1; omega
    rw [Nat.mul_add, Nat.mul_one, h2] at hmul
    have hmlt : 2 ^ k * (v / 2 ^ k) + 2 ^ k - 1 < 2 ^ w := by omega
    rw [hdown, align_up_eq w k _ hk' hmlt]
    congr 1
    rw [Nat.add_sub_assoc hpos, Nat.mul_add_div hpos]
    have hz : (2 ^ k - 1) / 2 ^ k = 0 := Nat.div_eq_of_lt (by omega)
    rw [hz, Nat.add_zero]
  · rw [hdown]
    exact hdle
  · intro hov
    rw [align_up_eq w k v hk' hov]
    have hd := Nat.div_add_mod (v + 2 ^ k - 1) (2 ^ k)
    have hm : (v + 2 ^ k - 1) % 2 ^ k < 2 ^ k := Nat.mod_lt _ hpos
    generalize hA : 2 ^ k * ((v + 2 ^ k - 1) / 2 ^ k) = A at hd ⊢
    generalize hB : (v + 2 ^ k - 1) % 2 ^ k = B at hd hm
    omega

/-- Witness for C4: the three amended laws at w = 8, v = 100, a = 4. -/
theorem align_laws_witness :
    align_up 8 (align_down 8 100 (2 ^ 2)) (2 ^ 2) = align_down 8 100 (2 ^ 2)
    ∧ align_down 8 100 (2 ^ 2) ≤ 100
    ∧ 100 ≤ align_up 8 100 (2 ^ 2) := by
  have h := align_laws 8 2 100 (by decide) (by decide)
  exact ⟨h.1, h.2.1, h.2.2 (by decide)⟩

/-- Counterexample for C4: in the 8-bit unsigned instantiation, v = 255
with alignment 2 makes the biased sum wrap, align_up returns 0, and the
claimed v <= align_up(v, a) fails. -/
theorem align_up_overflow_counterexample :
    align_up 8 255 2 = 0 ∧ ¬ (255 ≤ align_up 8 255 2) := by decide

/-- Helper: the carrier addition is exact below 2 ^ w. -/
theorem wadd_of_lt (w c s : Nat) (h : c + s < 2 ^ w) : wadd w c s = c + s :=
  Nat.mod_eq_of_lt h

/-- Helper: the carrier subtraction is exact when the subtrahend fits
under the minuend. -/
theorem wsub_of_le (w c s : Nat) (hs : s < 2 ^ w) (hc : c < 2 ^ w) (h : s ≤ c) :
    wsub w c s = c - s := by
  unfold wsub
  rw [Nat.mod_eq_of_lt hs]
  rw [show c + (2 ^ w - s) = (c - s) + 2 ^ w by omega, Nat.add_mod_right]
  exact Nat.mod_eq_of_lt (by omega)

/-- Helper: one unsigned advance never changes the descriptor part of
the iterator. -/
theorem unext_preserves {w : Nat} (it : urange_iter w) :
    it.next.end_ = it.end_ ∧ it.next.step = it.step
    ∧ it.next.dir = it.dir ∧ it.next.mode = it.mode := by
  by_cases h : it.dir = range_dir.Forward <;> simp [urange_iter.next, h]

/-- Helper: n unsigned advances never change the descriptor part of the
iterator. -/
theorem unextN_preserves {w : Nat} (it : urange_iter w) (n : Nat) :
    (urange_iter.nextN it n).end_ = it.end_ ∧ (urange_iter.nextN it n).step = it.step
    ∧ (urange_iter.nextN it n).dir = it.dir ∧ (urange_iter.nextN it n).mode = it.mode := by
  induction n generalizing it with
  | zero => exact ⟨rfl, rfl, rfl, rfl⟩
  | succ n ih =>
      rw [urange_iter.nextN]
      have h := ih it.next
      have hp := unext_preserves it
      exact ⟨h.1.trans hp.1, h.2.1.trans hp.2.1,
        h.2.2.1.trans hp.2.2.1, h.2.2.2.trans hp.2.2.2⟩

/-- Helper: the unsigned stop test written out over the iterator
fields. -/
theorem uatEnd_eq {w : Nat} (it : urange_iter w) :
    it.atEnd
      = if it.dir = range_dir.Forward then
          (if it.mode = range_mode.Inclusive then decide (it.end_ < it.cur)
           else decide (it.end_ ≤ it.cur))
        else
          (if it.mode = range_mode.Inclusive then decide (it.cur < it.end_)
           else decide (it.cur ≤ it.end_)) := rfl

/-- Helper: a Forward unsigned traversal whose no-wrap proviso holds
stops within end + 1 - cur advances. -/
theorem uterm_forward (w : Nat) :
    ∀ (m : Nat) (it : urange_iter w),
      it.dir = range_dir.Forward → 0 < it.step →
      (it.mode = range_mode.Inclusive → it.end_ + it.step < 2 ^ w) →
      (it.mode = range_mode.Exclusive → it.end_ + it.step ≤ 2 ^ w) →
      it.cur < 2 ^ w → it.end_ + 1 - it.cur ≤ m →
      ∃ n : Nat, (urange_iter.nextN it n).atEnd = true := by
  intro m
  induction m with
  | zero =>
      intro it hd _ _ _ _ hm
      refine ⟨0, ?_⟩
      show it.atEnd = true
      cases hmode : it.mode <;> simp [uatEnd_eq, hd, hmode] <;> omega
  | succ m ih =>
      intro it hd hs hI hE hc hm
      by_cases hstop : it.atEnd = true
      · exact ⟨0, hstop⟩
      · have hp := unext_preserves it
        have hbound : it.cur + it.step < 2 ^ w ∧ it.cur ≤ it.end_ := by
          cases hmode : it.mode with
          | Inclusive =>
              have hne : ¬ it.end_ < it.cur := fun hlt =>
                hstop (by simp [uatEnd_eq, hd, hmode]; exact hlt)
              have := hI hmode
              omega
          | Exclusive =>
              have hne : ¬ it.end_ ≤ it.cur := fun hle =>
                hstop (by simp [uatEnd_eq, hd, hmode]; exact hle)
              have := hE hmode
              omega
        have hcur : it.next.cur = it.cur + it.step := by
          have h1 : it.next.cur = wadd w it.cur it.step := by
            simp [urange_iter.next, hd]
          rw [h1, wadd_of_lt w _ _ hbound.1]
        obtain ⟨n, hn⟩ := ih it.next
          (by rw [hp.2.2.1]; exact hd)
          (by rw [hp.2.1]; exact hs)
          (by rw [hp.2.2.2, hp.1, hp.2.1]; exact hI)
          (by rw [hp.2.2.2, hp.1, hp.2.1]; exact hE)
          (by rw [hcur]; omega)
          (by rw [hcur, hp.1]; omega)
        exact ⟨n + 1, by rw [urange_iter.nextN]; exact hn⟩

/-- Helper: a Backward unsigned traversal whose no-wrap proviso holds
stops within cur + 1 - end advances. -/
theorem uterm_backward (w : Nat) :
    ∀ (m : Nat) (it : urange_iter w),
      it.dir = range_dir.Backward → 0 < it.step → it.step < 2 ^ w →
      (it.mode = range_mode.Inclusive → it.step ≤ it.end_) →
      (it.mode = range_mode.Exclusive → it.step ≤ it.end_ + 1) →
      it.cur < 2 ^ w → it.cur + 1 - it.end_ ≤ m →
      ∃ n : Nat, (urange_iter.nextN it n).atEnd = true := by
  intro m
  induction m with
  | zero =>
      intro it hd _ _ _ _ _ hm
      refine ⟨0, ?_⟩
      show it.atEnd = true
      cases hmode : it.mode <;> simp [uatEnd_eq, hd, hmode] <;> omega
  | succ m ih =>
      intro it hd hs hsw hI hE hc hm
      by_cases hstop : it.atEnd = true
      · exact ⟨0, hstop⟩
      · have hp := unext_preserves it
        have hbound : it.step ≤ it.cur ∧ it.end_ ≤ it.cur := by
          cases hmode : it.mode with
          | Inclusive =>
              have hne : ¬ it.cur < it.end_ := fun hlt =>
                hstop (by simp [uatEnd_eq, hd, hmode]; exact hlt)
              have := hI hmode
              omega
          | Exclusive =>
              have hne : ¬ it.cur ≤ it.end_ := fun hle =>
                hstop (by simp [uatEnd_eq, hd, hmode]; exact hle)
              have := hE hmode
              omega
        have hcur : it.next.cur = it.cur - it.step := by
          have h1 : it.next.cur = wsub w it.cur it.step := by
            simp [urange_iter.next, hd]
          rw [h1, wsub_of_le w _ _ hsw hc hbound.1]
        obtain ⟨n, hn⟩ := ih it.next
          (by rw [hp.2.2.1]; exact hd)
          (by rw [hp.2.1]; exact hs)
          (by rw [hp.2.1]; exact hsw)
          (by rw [hp.2.2.2, hp.1, hp.2.1]; exact hI)
          (by rw [hp.2.2.2, hp.1, hp.2.1]; exact hE)
          (by rw [hcur]; omega)
          (by rw [hcur, hp.1]; omega)
        exact ⟨n + 1, by rw [urange_iter.nextN]; exact hn⟩

/-- C10 (amended): at the w-bit unsigned instantiation of the current
revision, a traversal whose step is positive terminates for every
direction and boundary mode, provided the carrier arithmetic cannot wrap
while the traversal is live: Forward needs end + step to fit in the word
(strictly below 2 ^ w in inclusive mode), Backward needs the step to fit
under the end value (under end + 1 in exclusive mode).  A merely nonzero
step does not suffice: the wrapping cursor can cycle below the sentinel
forever, see the counterexample. -/
theorem urange_positive_step_terminates (w : Nat) (rv : urange_view w)
    (hf : rv.from_ < 2 ^ w) (hs : 0 < rv.step) (hsw : rv.step < 2 ^ w)
    (hforI : rv.dir = range_dir.Forward → rv.mode = range_mode.Inclusive →
      rv.to_ + rv.step < 2 ^ w)
    (hforE : rv.dir = range_dir.Forward → rv.mode = range_mode.Exclusive →
      rv.to_ + rv.step ≤ 2 ^ w)
    (hbackI : rv.dir = range_dir.Backward → rv.mode = range_mode.Inclusive →
      rv.step ≤ rv.to_)
    (hbackE : rv.dir = range_dir.Backward → rv.mode = range_mode.Exclusive →
      rv.step ≤ rv.to_ + 1) :
    ∃ n : Nat, (urange_iter.nextN rv.begin n).atEnd = true := by
  obtain ⟨f, t, s, dir, mode⟩ := rv
  cases dir with
  | Forward =>
      exact uterm_forward w (t + 1) (⟨f, t, s, range_dir.Forward, mode⟩ : urange_iter w)
        rfl hs (hforI rfl) (hforE rfl) hf (by show t + 1 - f ≤ t + 1; omega)
  | Backward =>
      exact uterm_backward w (f + 1) (⟨f, t, s, range_dir.Backward, mode⟩ : urange_iter w)
        rfl hs hsw (hbackI rfl) (hbackE rfl) hf (by show f + 1 - t ≤ f + 1; omega)

/-- Witness for C10: the u8 range over 0..10 with step 2, Forward,
Exclusive satisfies the no-wrap proviso and its traversal terminates. -/
theorem urange_positive_step_terminates_witness :
    ∃ n : Nat,
      (urange_iter.nextN (urange 8 0 10 2 range_dir.Forward range_mode.Exclusive).begin n).atEnd
        = true :=
  urange_positive_step_terminates 8 _ (by decide) (by decide) (by decide)
    (fun _ hm => absurd hm (by decide)) (fun _ _ => by decide)
    (fun hd => absurd hd (by decide)) (fun hd => absurd hd (by decide))

/-- Helper: in the u8 step-16 Forward traversal the cursor stays a
multiple of 16 below 256 forever. -/
theorem u8_step16_invariant (it : urange_iter 8)
    (hd : it.dir = range_dir.Forward) (hstep : it.step = 16)
    (hc : it.cur % 16 = 0 ∧ it.cur < 256) (n : Nat) :
    ((urange_iter.nextN it n).cur) % 16 = 0 ∧ (urange_iter.nextN it n).cur < 256 := by
  induction n generalizing it with
  | zero => exact hc
  | succ n ih =>
      rw [urange_iter.nextN]
      refine ih it.next ?_ ?_ ?_
      · rw [(unext_preserves it).2.2.1]; exact hd
      · rw [(unext_preserves it).2.1]; exact hstep
      · have h1 : it.next.cur = wadd 8 it.cur it.step := by
          simp [urange_iter.next, hd]
        have h2 : wadd 8 it.cur 16 = (it.cur + 16) % 256 := rfl
        rw [h1, hstep, h2]
        omega

/-- Counterexample for C10: at the u8 instantiation the step 16 is
nonzero (and positive), yet range(0, 255, 16, Forward, Exclusive) never
stops: the wrapping cursor cycles through the multiples of 16 below 256
and the stop test cursor >= 255 never becomes true, after any number of
advances. -/
theorem wrap_nonzero_step_divergence :
    ¬ ∃ n : Nat,
      (urange_iter.nextN (urange 8 0 255 16 range_dir.Forward range_mode.Exclusive).begin n).atEnd
        = true := by
  rintro ⟨n, hn⟩
  have hp := unextN_preserves
    (⟨0, 255, 16, range_dir.Forward, range_mode.Exclusive⟩ : urange_iter 8) n
  have hin := u8_step16_invariant
    (⟨0, 255, 16, range_dir.Forward, range_mode.Exclusive⟩ : urange_iter 8) rfl rfl
    (by decide) n
  rw [show (urange 8 0 255 16 range_dir.Forward range_mode.Exclusive).begin
        = (⟨0, 255, 16, range_dir.Forward, range_mode.Exclusive⟩ : urange_iter 8) from rfl,
    uatEnd_eq, hp.2.2.1, hp.2.2.2, hp.1] at hn
  simp at hn
  omega

end stx
